import Mathlib

/-!
Shallow embedding of the hierarchical cancellation-context core of
`src/chapter4/src/4_2_5/main.rs` (a Go-style `context` tree in Rust/tokio),
together with theorems settling the frozen claims about it.

The embedded parts are:
  * `ContextError`, `ContextValueError`, `ContextKey` — the Rust enums.
  * `WithCancel` — a cancelable node together with its (immutable after
    construction) subtree of registered children.  In the Rust code a node's
    `ContextBody` holds `children : Vec<Arc<dyn Canceler>>`; since only
    `WithCancel` implements `Canceler`, the children are again `WithCancel`
    nodes, and since the parent/child structure never changes after
    `WithCancel::new`, a node plus its transitively registered children is
    faithfully a finitely-branching tree whose mutable part is each node's
    `canceled : Option<ContextError>` field.
  * `Background` — the root node: no parent, its own `ContextBody` whose
    `canceled` field nothing ever sets (`Background` implements no
    `Canceler`), and whose `err`/`done`/`deadline` are `todo!()` stubs.
  * `WithCancel.cancel` — the downward cascade of `impl Canceler for
    WithCancel { fn cancel }`: cancel every registered child with
    `cancel(false, error.clone())`, then `body.canceled.replace(error)`.
  * path-addressed operations on whole trees (`cancelAtBg`, `newChildAtBg`)
    modelling `CancelFunc::cancel` / `Canceler::cancel` invoked on an
    arbitrary node of a tree, and `WithCancel::new` registering a fresh
    child into a parent's `children` list;
  * `Chain` / `Chain.value` — the upward parent chain that a node's
    `value(key)` call walks (`WithCancel::value` delegates to the parent,
    `Background::value` returns `Err(NotFound)`);
  * `Ev` / `WithCancel.cancelTrace` — the lock/notify event trace of one
    `cancel` call (the `MutexGuard` obtained at the top of
    `Canceler::cancel` lives to the end of the function, i.e. across the
    recursive child cancels);
  * `WaitState` / `WaitOp` — the per-node waiter protocol of
    `WithCancel::done` against tokio's `Notify`: a `done()` caller first
    registers with `cancel_notify.notified()`, is moved to the woken set
    only by a later `notify_waiters()` (which stores no permit for future
    waiters), and on resumption re-reads `canceled` under the lock.
-/

/-- Rust `enum ContextError { Canceled }` — the sole cancellation cause. -/
inductive ContextError where
  | Canceled : ContextError
deriving DecidableEq, Repr

/-- Rust `enum ContextValueError { NotFound }`. -/
inductive ContextValueError where
  | NotFound : ContextValueError
deriving DecidableEq, Repr

/-- Rust `enum ContextKey { String(String), CancelContext }`. -/
inductive ContextKey where
  | str : String → ContextKey
  | cancelContext : ContextKey
deriving DecidableEq, Repr

/-- A `WithCancel` node together with its registered children: the node's
`ContextBody.canceled` field and the subtrees reachable through
`ContextBody.children`.  The structure (which children are registered where)
is fixed by `WithCancel::new` and never mutated afterwards; only the
`canceled` fields change. -/
inductive WithCancel where
  | mk : Option ContextError → List WithCancel → WithCancel

/-- The `canceled` field of the node's `ContextBody` — exactly what
`WithCancel::err` returns (`self.body.lock().unwrap().canceled.clone()`). -/
def WithCancel.err : WithCancel → Option ContextError
  | .mk c _ => c

/-- The node's registered children (`ContextBody.children`). -/
def WithCancel.childList : WithCancel → List WithCancel
  | .mk _ cs => cs

mutual
/-- Rust `impl Canceler for WithCancel { fn cancel(&self, _remove_from_parent,
error) }`: under the node's lock, call `child.cancel(false, error.clone())`
on every registered child, then `body.canceled.replace(error)` (the
`_remove_from_parent` flag is bound but never read).  Result: the state of
the subtree when `cancel` returns. -/
def WithCancel.cancel : WithCancel → Bool → ContextError → WithCancel
  | .mk _ cs, _, e => .mk (some e) (WithCancel.cancelChildren cs e)

/-- The `for child in &body.children { child.cancel(false, error.clone()) }`
loop: every child is canceled with the same (cloned, hence equal) cause and
with the flag hard-coded to `false`. -/
def WithCancel.cancelChildren : List WithCancel → ContextError → List WithCancel
  | [], _ => []
  | c :: cs, e => WithCancel.cancel c false e :: WithCancel.cancelChildren cs e
end

mutual
/-- Does every node of the subtree (the node itself and all of its
descendants) record exactly the cause `e`?  This is `err(D) = Some(e)` for
the node and every descendant `D`. -/
def WithCancel.allCanceledWith : WithCancel → ContextError → Bool
  | .mk c cs, e => (decide (c = some e)) && WithCancel.allChildrenCanceledWith cs e

/-- `allCanceledWith` for each tree in a list of children. -/
def WithCancel.allChildrenCanceledWith : List WithCancel → ContextError → Bool
  | [], _ => true
  | c :: cs, e => WithCancel.allCanceledWith c e && WithCancel.allChildrenCanceledWith cs e
end

/-- Outcome of calling a Rust function that may `panic!` (here: reach a
`todo!()` stub) instead of returning. -/
inductive PanicOr (α : Type) where
  | panics : PanicOr α
  | ret : α → PanicOr α
deriving DecidableEq, Repr

/-- The root node `Background`: its `ContextBody` has `parent = None` and a
`canceled` field that no operation of the program ever sets (`Background`
does not implement `Canceler`).  `children` is the root's registered child
list. -/
structure Background where
  canceled : Option ContextError
  children : List WithCancel

/-- Rust `Background::new()`: fresh body with no parent, no children, not
canceled. -/
def Background.new : Background := ⟨none, []⟩

/-- Rust `impl Context for Background { fn err }` is `todo!()`: calling it
panics unconditionally; it never returns a value. -/
def Background.errCall (_ : Background) : PanicOr (Option ContextError) :=
  .panics

/-- Rust `impl Context for Background { fn value }`:
`Err(ContextValueError::NotFound)` for every key.  The success payload
models `Arc<dyn Any>`; no value is ever produced in this core. -/
def Background.value (_ : Background) (_ : ContextKey) : Except ContextValueError Unit :=
  .error .NotFound

/-- Replace the `i`-th entry of a child list by `f` of it (no entry is ever
added or removed): how an operation on one registered child changes the
parent's `children` vector. -/
def modifyAt : List WithCancel → Nat → (WithCancel → WithCancel) → List WithCancel
  | [], _, _ => []
  | c :: cs, 0, f => f c :: cs
  | c :: cs, i + 1, f => c :: modifyAt cs i f

/-- Invoke `Canceler::cancel(b, e)` on the node addressed by `path` inside
the subtree `t` (the empty path addresses `t` itself).  Nodes off the path
are untouched; the node's whole subtree is canceled by `WithCancel.cancel`. -/
def WithCancel.cancelAt : WithCancel → List Nat → Bool → ContextError → WithCancel
  | t, [], b, e => WithCancel.cancel t b e
  | .mk c cs, i :: p, b, e => .mk c (modifyAt cs i (fun ch => WithCancel.cancelAt ch p b e))

/-- Invoke `Canceler::cancel(b, e)` on the node addressed by `i :: p` in the
tree rooted at `r` (the root itself implements no `Canceler`, so the path
into a child is always nonempty). -/
def cancelAtBg (r : Background) (i : Nat) (p : List Nat) (b : Bool) (e : ContextError) :
    Background :=
  { r with children := modifyAt r.children i (fun ch => WithCancel.cancelAt ch p b e) }

/-- The body allocated by `WithCancel::new`: `canceled: None`,
`children: vec![]` (and `parent: Some(context)`, represented by where the
node is registered). -/
def freshChild : WithCancel := .mk none []

/-- `WithCancel::new` under the node addressed by `path`: push a fresh node
onto that node's `children` list
(`context.context_body().lock().unwrap().children.push(this.clone())`). -/
def WithCancel.newChildAt : WithCancel → List Nat → WithCancel
  | .mk c cs, [] => .mk c (cs ++ [freshChild])
  | .mk c cs, i :: p => .mk c (modifyAt cs i (fun ch => WithCancel.newChildAt ch p))

/-- `WithCancel::new` with the parent addressed by `path` in the tree rooted
at `r` (the empty path means the root itself is the parent, as in `main`). -/
def newChildAtBg (r : Background) : List Nat → Background
  | [] => { r with children := r.children ++ [freshChild] }
  | i :: p => { r with children := modifyAt r.children i (fun ch => WithCancel.newChildAt ch p) }

/-- The node addressed by `q` inside the subtree `t`, if the path is valid. -/
def WithCancel.findAt : WithCancel → List Nat → Option WithCancel
  | t, [] => some t
  | .mk _ cs, i :: p =>
    match cs[i]? with
    | some c => WithCancel.findAt c p
    | none => none

/-- The `WithCancel` node addressed by `q` in the tree rooted at `r` (the
empty path is the root, which is not a `WithCancel`). -/
def Background.findAt (r : Background) : List Nat → Option WithCancel
  | [] => none
  | i :: p =>
    match r.children[i]? with
    | some c => WithCancel.findAt c p
    | none => none

/-- `WithCancel::err` of the node addressed by `q`, if the path is valid. -/
def Background.errAt (r : Background) (q : List Nat) : Option (Option ContextError) :=
  (Background.findAt r q).map WithCancel.err

/-- Length of the `children` list of the node addressed by `q` (for the
root, of the root's own list). -/
def Background.childCountAt (r : Background) (q : List Nat) : Option Nat :=
  match q with
  | [] => some r.children.length
  | _ :: _ => (Background.findAt r q).map (fun t => t.childList.length)

/-- The state-changing operations the program can perform on a tree:
`Canceler::cancel` on some node (in particular `CancelFunc::cancel`, which
is `cancel(true, Canceled)`), and `WithCancel::new` registering a fresh
child under some node.  `err`, `value` and `done` do not change the tree. -/
inductive TreeOp where
  | cancelAt : Nat → List Nat → Bool → ContextError → TreeOp
  | newChild : List Nat → TreeOp

/-- Apply one operation to the tree. -/
def Background.applyOp (r : Background) : TreeOp → Background
  | .cancelAt i p b e => cancelAtBg r i p b e
  | .newChild p => newChildAtBg r p

/-- Apply a sequence of operations, oldest first. -/
def Background.runOps (r : Background) (ops : List TreeOp) : Background :=
  ops.foldl Background.applyOp r

/-- A node as seen by `value(key)`: itself (with its `canceled` field) and
its chain of parents, ending at the `Background` root.  `WithCancel::new`
sets `parent = Some(context)` once and the field is never mutated, so every
node of every tree built from `Background::new` and `WithCancel::new`
determines exactly one such chain. -/
inductive Chain where
  | background : Background → Chain
  | withCancel : Option ContextError → Chain → Chain

/-- Rust `impl Context for WithCancel { fn value }` /
`impl Context for Background { fn value }`: a `WithCancel` node delegates
unconditionally to its parent
(`body.parent.as_ref().expect(..).value(key)`); the root returns
`Err(NotFound)`. -/
def Chain.value : Chain → ContextKey → Except ContextValueError Unit
  | .background r, k => Background.value r k
  | .withCancel _ par, k => Chain.value par k

/-- Number of `WithCancel` ancestors of the node (itself included): the
depth of the node below the root. -/
def Chain.depth : Chain → Nat
  | .background _ => 0
  | .withCancel _ par => Chain.depth par + 1

/-- `Chain.value` instrumented with a step budget: each delegation to the
parent consumes one unit of fuel; `none` means the budget was exhausted
before the call returned. -/
def Chain.valueFuel : Nat → Chain → ContextKey → Option (Except ContextValueError Unit)
  | 0, _, _ => none
  | _ + 1, .background r, k => some (Background.value r k)
  | fuel + 1, .withCancel _ par, k => Chain.valueFuel fuel par k

/-- Observable events of one `Canceler::cancel` call, tagged with the path
of the node they happen at: acquiring a node's `body` mutex, writing the
node's `canceled` field, `notify_waiters()` on the node's `cancel_notify`,
and releasing the node's mutex (the guard dropping at the end of the
function body). -/
inductive Ev where
  | acq : List Nat → Ev
  | setC : List Nat → Ev
  | notify : List Nat → Ev
  | rel : List Nat → Ev
deriving DecidableEq, Repr

/-- The node path an event happens at. -/
def Ev.path : Ev → List Nat
  | .acq p => p
  | .setC p => p
  | .notify p => p
  | .rel p => p

mutual
/-- The event trace of `Canceler::cancel` on the node at path `p`: the
function first takes the node's own lock (`self.body.lock().unwrap()`),
then, with that guard still alive, recursively cancels each registered
child, then sets `canceled`, calls `notify_waiters()`, and finally the
guard drops at the end of the function. -/
def WithCancel.cancelTrace : WithCancel → List Nat → List Ev
  | .mk _ cs, p =>
    Ev.acq p :: (WithCancel.childTraces cs p 0 ++ [Ev.setC p, Ev.notify p, Ev.rel p])

/-- Concatenated traces of the child cancels, the `i`-th child living at
path `p ++ [i]`. -/
def WithCancel.childTraces : List WithCancel → List Nat → Nat → List Ev
  | [], _, _ => []
  | c :: cs, p, i =>
    WithCancel.cancelTrace c (p ++ [i]) ++ WithCancel.childTraces cs p (i + 1)
end

/-- Boolean test: is `p` an initial segment of `q` (so the node at `p` is
the node at `q` or one of its ancestors)? -/
def leadsTo : List Nat → List Nat → Bool
  | [], _ => true
  | _ :: _, [] => false
  | a :: p, b :: q => a == b && leadsTo p q

/-- Boolean test: is `p` a proper initial segment of `q` (the node at `p` a
strict ancestor of the node at `q`)? -/
def ancPath : List Nat → List Nat → Bool
  | [], [] => false
  | [], _ :: _ => true
  | _ :: _, [] => false
  | a :: p, b :: q => a == b && ancPath p q

/-- Is every path in `S` a strict ancestor of `p`? -/
def allAnc : List (List Nat) → List Nat → Bool
  | [], _ => true
  | q :: S, p => ancPath q p && allAnc S p

/-- Is the list of held lock paths (most recently acquired first) a nested
ancestor chain: each entry a strict descendant of every later entry? -/
def IsStack : List (List Nat) → Bool
  | [] => true
  | p :: S => allAnc S p && IsStack S

/-- Effect of one trace event on the set of currently held mutexes
(represented as the list of their nodes' paths, most recently acquired
first): `acq` adds the node's lock, `rel` removes it, writing `canceled`
and `notify_waiters` leave it unchanged. -/
def lockStep (S : List (List Nat)) : Ev → List (List Nat)
  | .acq p => p :: S
  | .rel p => S.filter (fun x => x != p)
  | .setC _ => S
  | .notify _ => S

/-- Locks held after running the events from the held-set `S`. -/
def runLocks (S : List (List Nat)) (evs : List Ev) : List (List Nat) :=
  evs.foldl lockStep S

/-- Starting from held-set `S`, is the held-set after every single event of
the trace a nested ancestor chain (`IsStack`)? -/
def stackRun (S : List (List Nat)) : List Ev → Bool
  | [] => true
  | ev :: evs => IsStack (lockStep S ev) && stackRun (lockStep S ev) evs

/-- Result of `WithCancel::done`: Rust `Result<(), ContextError>`. -/
inductive DoneRes where
  | ok : DoneRes
  | err : ContextError → DoneRes
deriving DecidableEq, Repr

/-- Waiter-visible state of one node: its `canceled` field, the waiters
currently registered with `cancel_notify.notified()` and not yet notified,
the waiters notified but not yet rescheduled, and the `done()` calls that
have returned, with their results. -/
structure WaitState where
  canceled : Option ContextError
  registered : List Nat
  woken : List Nat
  resolved : List (Nat × DoneRes)
deriving DecidableEq, Repr

/-- Node state before anything happens: not canceled, no waiters. -/
def WaitState.init : WaitState := ⟨none, [], [], []⟩

/-- Atomic steps of the `done`/`cancel` protocol on one node.
`register w`: task `w` calls `done()`, which first polls
`cancel_notify.notified()`, registering `w` as a waiter — note the code
awaits before ever reading `canceled`.
`cancel e`: the node-local part of `Canceler::cancel` under the node's
lock — `body.canceled.replace(e)` followed by
`cancel_notify.notify_waiters()`, which wakes exactly the currently
registered waiters and stores no permit for future ones.
`resolve w`: a notified task `w` is rescheduled, takes the lock, re-reads
`canceled`, and `done()` returns `Err(e)` if it is `Some(e)`, else `Ok(())`. -/
inductive WaitOp where
  | register : Nat → WaitOp
  | cancel : ContextError → WaitOp
  | resolve : Nat → WaitOp

/-- Membership test for a waiter id in a waiter list. -/
def natMem (w : Nat) : List Nat → Bool
  | [] => false
  | x :: xs => (x == w) || natMem w xs

/-- Apply one protocol step. -/
def WaitState.applyOp (s : WaitState) : WaitOp → WaitState
  | .register w => { s with registered := s.registered ++ [w] }
  | .cancel e =>
    { s with
      canceled := some e
      registered := []
      woken := s.woken ++ s.registered }
  | .resolve w =>
    if natMem w s.woken then
      { s with
        woken := s.woken.filter (fun x => x != w)
        resolved := s.resolved ++
          [(w, match s.canceled with
               | some e => DoneRes.err e
               | none => DoneRes.ok)] }
    else s

/-- Run a sequence of protocol steps from a state. -/
def WaitState.run (s : WaitState) (ops : List WaitOp) : WaitState :=
  ops.foldl WaitState.applyOp s

/-- Does the step sequence contain a `cancel` of this node? -/
def hasCancelOp : List WaitOp → Bool
  | [] => false
  | .cancel _ :: _ => true
  | _ :: ops => hasCancelOp ops

/-- Scenario tree for the lock-discipline counterexample: a single
cancelable node `N` with one registered child. -/
def demoParentChild : WithCancel := .mk none [.mk none []]

/-- Scenario of the spec: root `R` with child `A`, grandchild `B` — here the
root's children list after building `A` and `B`. -/
def demoRAB : Background := ⟨none, [.mk none [.mk none []]]⟩

/-- Scenario of the spec: root `R` with two independent children `A`, `B`. -/
def demoSiblings : Background := ⟨none, [.mk none [], .mk none []]⟩

/-!  Theorems.  -/

/-- Structural induction principle for `WithCancel` with the membership view
of the nested list of children. -/
theorem WithCancel.myInd {motive : WithCancel → Prop}
    (h : ∀ c cs, (∀ t, t ∈ cs → motive t) → motive (WithCancel.mk c cs)) :
    ∀ t, motive t := fun t =>
  @WithCancel.rec motive (fun cs => ∀ x, x ∈ cs → motive x)
    h
    (fun x hx => absurd hx (List.not_mem_nil x))
    (fun hd tl hhd htl x hx => by
      rcases List.mem_cons.mp hx with h1 | h2
      · exact h1 ▸ hhd
      · exact htl x h2)
    t

/-- The `_remove_from_parent` flag never influences the cascade: the single
equation of `WithCancel.cancel` discards it. -/
theorem WithCancel.cancel_flag_irrel (t : WithCancel) (b₁ b₂ : Bool) (e : ContextError) :
    WithCancel.cancel t b₁ e = WithCancel.cancel t b₂ e := by
  cases t with
  | mk c cs => simp [WithCancel.cancel]

/-- After `cancel`, the whole subtree records exactly the cause that was
passed in. -/
theorem WithCancel.cancel_allCanceledWith (t : WithCancel) (b : Bool) (e : ContextError) :
    WithCancel.allCanceledWith (WithCancel.cancel t b e) e = true := by
  induction t using WithCancel.myInd with
  | h c cs ih =>
    simp only [WithCancel.cancel, WithCancel.allCanceledWith, decide_eq_true_eq,
      Bool.and_eq_true]
    refine ⟨by trivial, ?_⟩
    induction cs with
    | nil => simp [WithCancel.cancelChildren, WithCancel.allChildrenCanceledWith]
    | cons c' cs' ih' =>
      simp only [WithCancel.cancelChildren, WithCancel.allChildrenCanceledWith,
        Bool.and_eq_true]
      rw [WithCancel.cancel_flag_irrel c' false b]
      exact ⟨ih c' (List.mem_cons_self c' cs'),
        ih' (fun t ht => ih t (List.mem_cons_of_mem c' ht))⟩

theorem modifyAt_get_self (cs : List WithCancel) (i : Nat) (f : WithCancel → WithCancel) :
    (modifyAt cs i f)[i]? = (cs[i]?).map f := by
  induction cs generalizing i with
  | nil => simp [modifyAt]
  | cons c cs ih =>
    cases i with
    | zero => simp [modifyAt]
    | succ j => simpa [modifyAt] using ih j

theorem modifyAt_get_ne (cs : List WithCancel) (i j : Nat) (f : WithCancel → WithCancel)
    (h : j ≠ i) : (modifyAt cs i f)[j]? = cs[j]? := by
  induction cs generalizing i j with
  | nil => simp [modifyAt]
  | cons c cs ih =>
    cases i with
    | zero =>
      cases j with
      | zero => exact absurd rfl h
      | succ j' => simp [modifyAt]
    | succ i' =>
      cases j with
      | zero => simp [modifyAt]
      | succ j' => simpa [modifyAt] using ih i' j' (fun hh => h (by simp [hh]))

theorem modifyAt_length (cs : List WithCancel) (i : Nat) (f : WithCancel → WithCancel) :
    (modifyAt cs i f).length = cs.length := by
  induction cs generalizing i with
  | nil => simp [modifyAt]
  | cons c cs ih =>
    cases i with
    | zero => simp [modifyAt]
    | succ j => simpa [modifyAt] using ih j

theorem cancelChildren_get (cs : List WithCancel) (e : ContextError) (i : Nat) :
    (WithCancel.cancelChildren cs e)[i]?
      = (cs[i]?).map (fun s => WithCancel.cancel s false e) := by
  induction cs generalizing i with
  | nil => simp [WithCancel.cancelChildren]
  | cons c cs ih =>
    cases i with
    | zero => simp [WithCancel.cancelChildren]
    | succ j => simpa [WithCancel.cancelChildren] using ih j

theorem cancelChildren_length (cs : List WithCancel) (e : ContextError) :
    (WithCancel.cancelChildren cs e).length = cs.length := by
  induction cs with
  | nil => simp [WithCancel.cancelChildren]
  | cons c cs ih => simpa [WithCancel.cancelChildren] using ih

theorem WithCancel.err_cancel (t : WithCancel) (b : Bool) (e : ContextError) :
    (WithCancel.cancel t b e).err = some e := by
  cases t with
  | mk c cs => simp [WithCancel.cancel, WithCancel.err]

theorem WithCancel.childList_cancel (t : WithCancel) (b : Bool) (e : ContextError) :
    (WithCancel.cancel t b e).childList.length = t.childList.length := by
  cases t with
  | mk c cs => simp [WithCancel.cancel, WithCancel.childList, cancelChildren_length]

theorem WithCancel.findAt_cancel (t : WithCancel) (q : List Nat) (b : Bool) (e : ContextError) :
    WithCancel.findAt (WithCancel.cancel t b e) q
      = (WithCancel.findAt t q).map (fun s => WithCancel.cancel s false e) := by
  induction q generalizing t b with
  | nil =>
    simp only [WithCancel.findAt, Option.map_some]
    exact congrArg some (WithCancel.cancel_flag_irrel t b false e)
  | cons i p ih =>
    cases t with
    | mk c cs =>
      simp only [WithCancel.cancel, WithCancel.findAt, cancelChildren_get]
      cases h : cs[i]? with
      | none => simp
      | some ch => simpa using ih ch false

theorem WithCancel.err_cancelAt (path : List Nat) :
    ∀ (t : WithCancel) (b : Bool) (e : ContextError) (q : List Nat),
      (WithCancel.findAt (WithCancel.cancelAt t path b e) q).map WithCancel.err
          = (WithCancel.findAt t q).map WithCancel.err
        ∨ ((WithCancel.findAt t q).isSome = true ∧
           (WithCancel.findAt (WithCancel.cancelAt t path b e) q).map WithCancel.err
             = some (some e)) := by
  induction path with
  | nil =>
    intro t b e q
    cases hq : WithCancel.findAt t q with
    | none => left; simp [WithCancel.cancelAt, WithCancel.findAt_cancel, hq]
    | some s =>
      right
      refine ⟨by simp [hq], ?_⟩
      simp [WithCancel.cancelAt, WithCancel.findAt_cancel, hq, WithCancel.err_cancel]
  | cons i p ih =>
    intro t b e q
    cases t with
    | mk c cs =>
      cases q with
      | nil => left; rfl
      | cons j q' =>
        by_cases hj : j = i
        · subst hj
          simp only [WithCancel.cancelAt, WithCancel.findAt, modifyAt_get_self]
          cases h : cs[j]? with
          | none => left; simp
          | some ch => simpa using ih ch b e q'
        · left
          simp only [WithCancel.cancelAt, WithCancel.findAt, modifyAt_get_ne cs i j _ hj]

theorem WithCancel.err_newChildAt (path : List Nat) :
    ∀ (t : WithCancel) (q : List Nat), (WithCancel.findAt t q).isSome = true →
      (WithCancel.findAt (WithCancel.newChildAt t path) q).map WithCancel.err
        = (WithCancel.findAt t q).map WithCancel.err := by
  induction path with
  | nil =>
    intro t q hq
    cases t with
    | mk c cs =>
      cases q with
      | nil => rfl
      | cons j q' =>
        simp only [WithCancel.newChildAt, WithCancel.findAt]
        cases h : cs[j]? with
        | none => simp [WithCancel.findAt, h] at hq
        | some ch =>
          have hlt : j < cs.length := by
            by_contra hge
            have : cs[j]? = none := List.getElem?_eq_none (Nat.le_of_not_lt hge)
            simp [this] at h
          simp [List.getElem?_append, hlt, h]
  | cons i p ih =>
    intro t q hq
    cases t with
    | mk c cs =>
      cases q with
      | nil => rfl
      | cons j q' =>
        by_cases hj : j = i
        · subst hj
          simp only [WithCancel.newChildAt, WithCancel.findAt, modifyAt_get_self]
          cases h : cs[j]? with
          | none => simp [WithCancel.findAt, h] at hq
          | some ch =>
            have hq' : (WithCancel.findAt ch q').isSome = true := by
              simpa [WithCancel.findAt, h] using hq
            simpa using ih ch q' hq'
        · simp only [WithCancel.newChildAt, WithCancel.findAt, modifyAt_get_ne cs i j _ hj]

theorem WithCancel.childCount_cancelAt (path : List Nat) :
    ∀ (t : WithCancel) (b : Bool) (e : ContextError) (q : List Nat),
      (WithCancel.findAt (WithCancel.cancelAt t path b e) q).map (fun s => s.childList.length)
        = (WithCancel.findAt t q).map (fun s => s.childList.length) := by
  induction path with
  | nil =>
    intro t b e q
    rw [WithCancel.cancelAt, WithCancel.findAt_cancel]
    cases hq : WithCancel.findAt t q with
    | none => simp
    | some s => simp [WithCancel.childList_cancel]
  | cons i p ih =>
    intro t b e q
    cases t with
    | mk c cs =>
      cases q with
      | nil =>
        simp [WithCancel.cancelAt, WithCancel.findAt, WithCancel.childList, modifyAt_length]
      | cons j q' =>
        by_cases hj : j = i
        · subst hj
          simp only [WithCancel.cancelAt, WithCancel.findAt, modifyAt_get_self]
          cases h : cs[j]? with
          | none => simp
          | some ch => simpa using ih ch b e q'
        · simp only [WithCancel.cancelAt, WithCancel.findAt, modifyAt_get_ne cs i j _ hj]

theorem WithCancel.findAt_cancelAt_self (path : List Nat) :
    ∀ (t : WithCancel) (b : Bool) (e : ContextError),
      WithCancel.findAt (WithCancel.cancelAt t path b e) path
        = (WithCancel.findAt t path).map (fun s => WithCancel.cancel s false e) := by
  induction path with
  | nil =>
    intro t b e
    simp only [WithCancel.cancelAt, WithCancel.findAt, Option.map_some]
    exact congrArg some (WithCancel.cancel_flag_irrel t b false e)
  | cons i p ih =>
    intro t b e
    cases t with
    | mk c cs =>
      simp only [WithCancel.cancelAt, WithCancel.findAt, modifyAt_get_self]
      cases h : cs[i]? with
      | none => simp
      | some ch => simpa using ih ch b e

theorem WithCancel.cancelAt_flag_irrel (path : List Nat) :
    ∀ (t : WithCancel) (b₁ b₂ : Bool) (e : ContextError),
      WithCancel.cancelAt t path b₁ e = WithCancel.cancelAt t path b₂ e := by
  induction path with
  | nil =>
    intro t b₁ b₂ e
    cases t with
    | mk c cs => simp only [WithCancel.cancelAt]; exact WithCancel.cancel_flag_irrel _ b₁ b₂ e
  | cons i p ih =>
    intro t b₁ b₂ e
    cases t with
    | mk c cs =>
      simp only [WithCancel.cancelAt]
      have : (fun ch => WithCancel.cancelAt ch p b₁ e)
          = (fun ch => WithCancel.cancelAt ch p b₂ e) := funext (fun ch => ih ch b₁ b₂ e)
      rw [this]

theorem Background.errAt_cancelAtBg (r : Background) (i : Nat) (p : List Nat) (b : Bool)
    (e : ContextError) (q : List Nat) :
    Background.errAt (cancelAtBg r i p b e) q = Background.errAt r q
      ∨ ((Background.findAt r q).isSome = true ∧
         Background.errAt (cancelAtBg r i p b e) q = some (some e)) := by
  cases q with
  | nil => left; rfl
  | cons j q' =>
    by_cases hj : j = i
    · subst hj
      simp only [Background.errAt, Background.findAt, cancelAtBg, modifyAt_get_self]
      cases h : r.children[j]? with
      | none => left; simp
      | some ch => simpa using WithCancel.err_cancelAt p ch b e q'
    · left
      simp only [Background.errAt, Background.findAt, cancelAtBg, modifyAt_get_ne _ i j _ hj]

theorem Background.errAt_newChildAtBg (r : Background) (p : List Nat) (q : List Nat)
    (h : (Background.findAt r q).isSome = true) :
    Background.errAt (newChildAtBg r p) q = Background.errAt r q := by
  cases p with
  | nil =>
    cases q with
    | nil => rfl
    | cons j q' =>
      simp only [Background.errAt, Background.findAt, newChildAtBg]
      cases hc : r.children[j]? with
      | none => simp [Background.findAt, hc] at h
      | some ch =>
        have hlt : j < r.children.length := by
          by_contra hge
          have : r.children[j]? = none := List.getElem?_eq_none (Nat.le_of_not_lt hge)
          simp [this] at hc
        simp [List.getElem?_append, hlt, hc]
  | cons i p' =>
    cases q with
    | nil => rfl
    | cons j q' =>
      by_cases hj : j = i
      · subst hj
        simp only [Background.errAt, Background.findAt, newChildAtBg, modifyAt_get_self]
        cases hc : r.children[j]? with
        | none => simp [Background.findAt, hc] at h
        | some ch =>
          have hq' : (WithCancel.findAt ch q').isSome = true := by
            simpa [Background.findAt, hc] using h
          simpa using WithCancel.err_newChildAt p' ch q' hq'
      · simp only [Background.errAt, Background.findAt, newChildAtBg,
          modifyAt_get_ne _ i j _ hj]

theorem Background.errAt_applyOp (r : Background) (op : TreeOp) (q : List Nat)
    (v : Option ContextError) (h : Background.errAt r q = some v) :
    Background.errAt (Background.applyOp r op) q = some v
      ∨ ∃ e, Background.errAt (Background.applyOp r op) q = some (some e) := by
  have hsome : (Background.findAt r q).isSome = true := by
    simp only [Background.errAt] at h
    cases hf : Background.findAt r q with
    | none => rw [hf] at h; simp at h
    | some s => simp
  cases op with
  | cancelAt i p b e =>
    rcases Background.errAt_cancelAtBg r i p b e q with h1 | ⟨_, h2⟩
    · left; rw [Background.applyOp, h1, h]
    · right; exact ⟨e, h2⟩
  | newChild p =>
    left
    rw [Background.applyOp, Background.errAt_newChildAtBg r p q hsome, h]

theorem leadsTo_refl (p : List Nat) : leadsTo p p = true := by
  induction p with
  | nil => rfl
  | cons a p ih => simp [leadsTo, ih]

theorem leadsTo_append (p ext : List Nat) : leadsTo p (p ++ ext) = true := by
  induction p with
  | nil => rfl
  | cons a p ih => simp [leadsTo, ih]

theorem leadsTo_trans (p q r : List Nat) (h1 : leadsTo p q = true) (h2 : leadsTo q r = true) :
    leadsTo p r = true := by
  induction p generalizing q r with
  | nil => rfl
  | cons a p ih =>
    cases q with
    | nil => simp [leadsTo] at h1
    | cons b q' =>
      cases r with
      | nil => simp [leadsTo] at h2
      | cons c r' =>
        simp only [leadsTo, Bool.and_eq_true, beq_iff_eq] at h1 h2 ⊢
        exact ⟨h1.1.trans h2.1, ih q' r' h1.2 h2.2⟩

theorem childTraces_under (bp : List Nat) (cs : List WithCancel)
    (hcs : ∀ c, c ∈ cs → ∀ (bp' : List Nat) (ev : Ev),
      ev ∈ WithCancel.cancelTrace c bp' → leadsTo bp' ev.path = true) :
    ∀ (i : Nat) (ev : Ev), ev ∈ WithCancel.childTraces cs bp i → leadsTo bp ev.path = true := by
  induction cs with
  | nil => intro i ev hev; simp [WithCancel.childTraces] at hev
  | cons c cs ih =>
    intro i ev hev
    simp only [WithCancel.childTraces, List.mem_append] at hev
    rcases hev with h1 | h2
    · have := hcs c (List.mem_cons_self c cs) (bp ++ [i]) ev h1
      exact leadsTo_trans bp (bp ++ [i]) ev.path (leadsTo_append bp [i]) this
    · exact ih (fun c' hc' => hcs c' (List.mem_cons_of_mem c hc')) (i + 1) ev h2

theorem cancelTrace_under (t : WithCancel) :
    ∀ (bp : List Nat) (ev : Ev), ev ∈ WithCancel.cancelTrace t bp → leadsTo bp ev.path = true := by
  induction t using WithCancel.myInd with
  | h c cs ih =>
    intro bp ev hev
    simp only [WithCancel.cancelTrace, List.mem_cons, List.mem_append] at hev
    rcases hev with h1 | h2 | h3
    · subst h1; simp [Ev.path, leadsTo_refl]
    · exact childTraces_under bp cs ih 0 ev h2
    · rcases h3 with h4 | h5 | h6 | h7
      · subst h4; simp [Ev.path, leadsTo_refl]
      · subst h5; simp [Ev.path, leadsTo_refl]
      · subst h6; simp [Ev.path, leadsTo_refl]
      · simp at h7

theorem ancPath_append (p : List Nat) (x : Nat) (ext : List Nat) :
    ancPath p (p ++ x :: ext) = true := by
  induction p with
  | nil => rfl
  | cons a p ih => simp [ancPath, ih]

theorem ancPath_extend (q : List Nat) :
    ∀ (p ext : List Nat), ancPath q p = true → ancPath q (p ++ ext) = true := by
  induction q with
  | nil =>
    intro p ext h
    cases p with
    | nil => simp [ancPath] at h
    | cons b p' => rfl
  | cons a q' ih =>
    intro p ext h
    cases p with
    | nil => simp [ancPath] at h
    | cons b p' =>
      simp only [ancPath, Bool.and_eq_true, beq_iff_eq] at h ⊢
      exact ⟨h.1, ih p' ext h.2⟩

theorem allAnc_extend (S : List (List Nat)) (p ext : List Nat) (h : allAnc S p = true) :
    allAnc S (p ++ ext) = true := by
  induction S with
  | nil => rfl
  | cons q S ih =>
    simp only [allAnc, Bool.and_eq_true] at h ⊢
    exact ⟨ancPath_extend q p ext h.1, ih h.2⟩

theorem ancPath_irrefl (p : List Nat) : ancPath p p = false := by
  induction p with
  | nil => rfl
  | cons a p ih => simp [ancPath, ih]

theorem ancPath_ne (q p : List Nat) (h : ancPath q p = true) : q ≠ p := by
  intro hqp
  subst hqp
  rw [ancPath_irrefl] at h
  exact Bool.false_ne_true h

theorem filter_bne_of_allAnc (S : List (List Nat)) (p : List Nat) (h : allAnc S p = true) :
    S.filter (fun x => x != p) = S := by
  induction S with
  | nil => rfl
  | cons q S ih =>
    simp only [allAnc, Bool.and_eq_true] at h
    have hne : q ≠ p := ancPath_ne q p h.1
    simp [List.filter_cons, bne_iff_ne, hne, ih h.2]

theorem runLocks_append (S : List (List Nat)) (l₁ l₂ : List Ev) :
    runLocks S (l₁ ++ l₂) = runLocks (runLocks S l₁) l₂ := by
  simp [runLocks, List.foldl_append]

theorem stackRun_append (S : List (List Nat)) (l₁ l₂ : List Ev) :
    stackRun S (l₁ ++ l₂) = (stackRun S l₁ && stackRun (runLocks S l₁) l₂) := by
  induction l₁ generalizing S with
  | nil => simp [stackRun, runLocks]
  | cons ev l₁ ih =>
    show (IsStack (lockStep S ev) && stackRun (lockStep S ev) (l₁ ++ l₂))
      = ((IsStack (lockStep S ev) && stackRun (lockStep S ev) l₁)
          && stackRun (runLocks (lockStep S ev) l₁) l₂)
    rw [ih, Bool.and_assoc]

theorem cancel_locks_nested (t : WithCancel) :
    ∀ (p : List Nat) (S : List (List Nat)), allAnc S p = true → IsStack S = true →
      stackRun S (WithCancel.cancelTrace t p) = true
      ∧ runLocks S (WithCancel.cancelTrace t p) = S := by
  induction t using WithCancel.myInd with
  | h c cs ih =>
    intro p S hanc hstack
    have hstack' : IsStack (p :: S) = true := by simp [IsStack, hanc, hstack]
    have hrel : lockStep (p :: S) (Ev.rel p) = S := by
      simp [lockStep, List.filter_cons, filter_bne_of_allAnc S p hanc]
    have hchild : ∀ (cs' : List WithCancel), (∀ x, x ∈ cs' → x ∈ cs) → ∀ (i : Nat),
        stackRun (p :: S) (WithCancel.childTraces cs' p i) = true
        ∧ runLocks (p :: S) (WithCancel.childTraces cs' p i) = p :: S := by
      intro cs' hsub
      induction cs' with
      | nil => intro i; exact ⟨rfl, rfl⟩
      | cons c' cs'' ihl =>
        intro i
        have hanc' : allAnc (p :: S) (p ++ [i]) = true := by
          simp only [allAnc, Bool.and_eq_true]
          exact ⟨ancPath_append p i [], allAnc_extend S p [i] hanc⟩
        have hc' := ih c' (hsub c' (List.mem_cons_self c' cs'')) (p ++ [i]) (p :: S)
          hanc' hstack'
        have hrest := ihl (fun x hx => hsub x (List.mem_cons_of_mem c' hx))
        constructor
        · rw [WithCancel.childTraces, stackRun_append, hc'.1, hc'.2, (hrest (i + 1)).1]
          rfl
        · rw [WithCancel.childTraces, runLocks_append, hc'.2]
          exact (hrest (i + 1)).2
    have hmain := hchild cs (fun x hx => hx) 0
    have htail : stackRun (p :: S) [Ev.setC p, Ev.notify p, Ev.rel p] = true
        ∧ runLocks (p :: S) [Ev.setC p, Ev.notify p, Ev.rel p] = S := by
      constructor
      · simp [stackRun, lockStep, hstack', hstack, List.filter_cons,
          filter_bne_of_allAnc S p hanc]
      · simp [runLocks, lockStep, List.filter_cons, filter_bne_of_allAnc S p hanc]
    constructor
    · rw [WithCancel.cancelTrace]
      show (IsStack (lockStep S (Ev.acq p))
        && stackRun (lockStep S (Ev.acq p))
          (WithCancel.childTraces cs p 0 ++ [Ev.setC p, Ev.notify p, Ev.rel p])) = true
      rw [lockStep, stackRun_append, hmain.1, hmain.2, htail.1, hstack']
      rfl
    · rw [WithCancel.cancelTrace]
      show runLocks (lockStep S (Ev.acq p))
          (WithCancel.childTraces cs p 0 ++ [Ev.setC p, Ev.notify p, Ev.rel p]) = S
      rw [lockStep, runLocks_append, hmain.2, htail.2]

theorem Background.childCount_cancelAtBg (r : Background) (i : Nat) (p : List Nat) (b : Bool)
    (e : ContextError) (q : List Nat) :
    Background.childCountAt (cancelAtBg r i p b e) q = Background.childCountAt r q := by
  cases q with
  | nil => simp [Background.childCountAt, cancelAtBg, modifyAt_length]
  | cons j q' =>
    by_cases hj : j = i
    · subst hj
      simp only [Background.childCountAt, Background.findAt, cancelAtBg, modifyAt_get_self]
      cases h : r.children[j]? with
      | none => simp
      | some ch => simpa using WithCancel.childCount_cancelAt p ch b e q'
    · simp only [Background.childCountAt, Background.findAt, cancelAtBg,
        modifyAt_get_ne _ i j _ hj]

theorem natMem_filter_false (w w' : Nat) (l : List Nat) (h : natMem w l = false) :
    natMem w (l.filter (fun x => x != w')) = false := by
  induction l with
  | nil => rfl
  | cons x xs ih =>
    simp only [natMem, Bool.or_eq_false_iff] at h
    by_cases hx : x != w'
    · simp [List.filter_cons, hx, natMem, h.1, ih h.2]
    · simp [List.filter_cons, hx, ih h.2]

theorem WaitState.run_inv (ops : List WaitOp) :
    ∀ (s : WaitState), (s.canceled = none → s.woken = []) →
      (∀ pr ∈ s.resolved, pr.2 = DoneRes.err ContextError.Canceled) →
      ((WaitState.run s ops).canceled = none → (WaitState.run s ops).woken = [])
      ∧ ∀ pr ∈ (WaitState.run s ops).resolved, pr.2 = DoneRes.err ContextError.Canceled := by
  induction ops with
  | nil => intro s h1 h2; exact ⟨h1, h2⟩
  | cons op ops ih =>
    intro s h1 h2
    have hrun : WaitState.run s (op :: ops) = WaitState.run (WaitState.applyOp s op) ops := rfl
    rw [hrun]
    cases op with
    | register w => exact ih _ h1 h2
    | cancel e =>
      refine ih _ (fun hc => ?_) h2
      simp [WaitState.applyOp] at hc
    | resolve w =>
      by_cases hw : natMem w s.woken = true
      · have hcanc : ∃ e, s.canceled = some e := by
          cases hc : s.canceled with
          | none => rw [h1 hc] at hw; simp [natMem] at hw
          | some e => exact ⟨e, rfl⟩
        rcases hcanc with ⟨e, he⟩
        refine ih _ (fun hc => ?_) ?_
        · simp only [WaitState.applyOp, hw, if_true] at hc
          rw [he] at hc
          simp at hc
        · intro pr hpr
          simp only [WaitState.applyOp, hw, if_true, List.mem_append, List.mem_singleton]
            at hpr
          rcases hpr with hold | hnew
          · exact h2 pr hold
          · subst hnew
            cases e
            rw [he]
      · have hop : WaitState.applyOp s (WaitOp.resolve w) = s := by
          simp [WaitState.applyOp, hw]
        rw [hop]
        exact ih s h1 h2

theorem WaitState.run_starve (w : Nat) :
    ∀ (ops : List WaitOp), hasCancelOp ops = false →
    ∀ (s : WaitState), natMem w s.woken = false → (∀ pr ∈ s.resolved, pr.1 ≠ w) →
      natMem w (WaitState.run s ops).woken = false
      ∧ ∀ pr ∈ (WaitState.run s ops).resolved, pr.1 ≠ w := by
  intro ops
  induction ops with
  | nil => intro _ s h1 h2; exact ⟨h1, h2⟩
  | cons op ops ih =>
    intro hnc s h1 h2
    have hrun : WaitState.run s (op :: ops) = WaitState.run (WaitState.applyOp s op) ops := rfl
    rw [hrun]
    cases op with
    | register w' =>
      exact ih (by simpa [hasCancelOp] using hnc) _ h1 h2
    | cancel e => simp [hasCancelOp] at hnc
    | resolve w' =>
      have hnc' : hasCancelOp ops = false := by simpa [hasCancelOp] using hnc
      by_cases hw : natMem w' s.woken = true
      · have hne : w' ≠ w := by
          intro hww
          subst hww
          rw [h1] at hw
          exact Bool.false_ne_true hw
        refine ih hnc' _ ?_ ?_
        · simp only [WaitState.applyOp, hw, if_true]
          exact natMem_filter_false w w' s.woken h1
        · intro pr hpr
          simp only [WaitState.applyOp, hw, if_true, List.mem_append, List.mem_singleton]
            at hpr
          rcases hpr with hold | hnew
          · exact h2 pr hold
          · subst hnew
            exact hne
      · have hop : WaitState.applyOp s (WaitOp.resolve w') = s := by
          simp [WaitState.applyOp, hw]
        rw [hop]
        exact ih hnc' s h1 h2

theorem Chain.value_eq_notFound (ch : Chain) (k : ContextKey) :
    Chain.value ch k = Except.error ContextValueError.NotFound := by
  induction ch with
  | background r => rfl
  | withCancel c par ih => simpa [Chain.value] using ih

/-- C1: for every tree and every cancelable node N in it (addressed by
`i :: p`), `Canceler::cancel(b, e)` replaces N's subtree by its canceled
image before returning, and every node of that subtree — N and all of its
descendants — records exactly the cause `e` that was passed in (the cause is
cloned, never transformed, on the way down).  Pending `done()` calls on
those nodes then resolve to `Err(e)` by the waiter protocol (claims C2/C10). -/
theorem C1_cancel_cancels_every_descendant_with_same_cause
    (r : Background) (i : Nat) (p : List Nat) (b : Bool) (e : ContextError) (t : WithCancel)
    (h : Background.findAt r (i :: p) = some t) :
    Background.findAt (cancelAtBg r i p b e) (i :: p) = some (WithCancel.cancel t false e)
    ∧ WithCancel.allCanceledWith (WithCancel.cancel t false e) e = true := by
  simp only [Background.findAt] at h
  cases hc : r.children[i]? with
  | none => simp [hc] at h
  | some c0 =>
    simp only [hc] at h
    constructor
    · simp only [Background.findAt, cancelAtBg, modifyAt_get_self, hc]
      show WithCancel.findAt (WithCancel.cancelAt c0 p b e) p
        = some (WithCancel.cancel t false e)
      rw [WithCancel.findAt_cancelAt_self p c0 b e, h]
      rfl
    · exact WithCancel.cancel_allCanceledWith t false e

/-- Witness for C1 on the concrete scenario tree (root with child A and
grandchild B): canceling A cancels A and B with cause `Canceled`. -/
theorem C1_witness :
    Background.findAt demoRAB [0] = some (WithCancel.mk none [WithCancel.mk none []])
    ∧ (Background.findAt (cancelAtBg demoRAB 0 [] true ContextError.Canceled) [0]
        = some (WithCancel.cancel (WithCancel.mk none [WithCancel.mk none []]) false
            ContextError.Canceled)
      ∧ WithCancel.allCanceledWith
          (WithCancel.cancel (WithCancel.mk none [WithCancel.mk none []]) false
            ContextError.Canceled) ContextError.Canceled = true) :=
  ⟨by rfl,
   C1_cancel_cancels_every_descendant_with_same_cause demoRAB 0 [] true
     ContextError.Canceled (WithCancel.mk none [WithCancel.mk none []]) (by rfl)⟩

/-- C2 (code-bug exhibit): in the `done`/`Notify` protocol the code
implements, a task that calls `done()` when the node is already canceled
registers with `cancel_notify.notified()` only after the cancel's
`notify_waiters()` has fired; tokio's `notify_waiters` stores no permit, so
as long as no further `cancel` arrives the late caller is never woken and
its `done()` call never returns — even though `canceled` is already
`Some(e)`.  This refutes the claim that a caller invoking `done()` on an
already-canceled node resolves to `Err(Canceled)`. -/
theorem C2_done_after_cancel_never_resolves (e : ContextError) (w : Nat) (ops : List WaitOp)
    (hnc : hasCancelOp ops = false) :
    (WaitState.applyOp (WaitState.applyOp WaitState.init (WaitOp.cancel e))
        (WaitOp.register w)).canceled = some e
    ∧ ∀ pr ∈ (WaitState.run
        (WaitState.applyOp (WaitState.applyOp WaitState.init (WaitOp.cancel e))
          (WaitOp.register w)) ops).resolved, pr.1 ≠ w := by
  refine ⟨rfl, ?_⟩
  have h0 : natMem w (WaitState.applyOp (WaitState.applyOp WaitState.init (WaitOp.cancel e))
      (WaitOp.register w)).woken = false := rfl
  have h2 : ∀ pr ∈ (WaitState.applyOp (WaitState.applyOp WaitState.init (WaitOp.cancel e))
      (WaitOp.register w)).resolved, pr.1 ≠ w := by
    intro pr hpr
    simp [WaitState.applyOp, WaitState.init] at hpr
  exact (WaitState.run_starve w ops hnc _ h0 h2).2

/-- Witness for C2: node canceled, then waiter 0 calls `done()`, then the
scheduler tries to resolve waiter 0 — it is still unresolved. -/
theorem C2_witness :
    hasCancelOp [WaitOp.resolve 0] = false
    ∧ ((WaitState.applyOp (WaitState.applyOp WaitState.init
          (WaitOp.cancel ContextError.Canceled)) (WaitOp.register 0)).canceled
        = some ContextError.Canceled
      ∧ ∀ pr ∈ (WaitState.run
          (WaitState.applyOp (WaitState.applyOp WaitState.init
            (WaitOp.cancel ContextError.Canceled)) (WaitOp.register 0))
          [WaitOp.resolve 0]).resolved, pr.1 ≠ 0) :=
  ⟨by decide,
   C2_done_after_cancel_never_resolves ContextError.Canceled 0 [WaitOp.resolve 0] (by decide)⟩

/-- C3: once a node (addressed by `q`) records a non-empty cancellation
cause, the cause stays recorded and equal to the same value after any
further sequence of tree operations — further cancels anywhere (including a
second cancel of the same node, which is a total, state-preserving
operation here) and new child registrations.  Cancellation is a monotonic,
one-way transition. -/
theorem C3_err_monotone (r : Background) (ops : List TreeOp) (q : List Nat) (c : ContextError)
    (h : Background.errAt r q = some (some c)) :
    Background.errAt (Background.runOps r ops) q = some (some c) := by
  induction ops generalizing r with
  | nil => exact h
  | cons op ops ih =>
    have hrun : Background.runOps r (op :: ops)
        = Background.runOps (Background.applyOp r op) ops := rfl
    rw [hrun]
    rcases Background.errAt_applyOp r op q (some c) h with h1 | ⟨e, h2⟩
    · exact ih _ h1
    · cases e
      cases c
      exact ih _ h2

/-- Witness for C3: a canceled child stays canceled with the same cause
across a second cancel and a new sibling registration. -/
theorem C3_witness :
    Background.errAt (Background.mk none [WithCancel.mk (some ContextError.Canceled) []]) [0]
      = some (some ContextError.Canceled)
    ∧ Background.errAt
        (Background.runOps (Background.mk none [WithCancel.mk (some ContextError.Canceled) []])
          [TreeOp.cancelAt 0 [] true ContextError.Canceled, TreeOp.newChild []]) [0]
      = some (some ContextError.Canceled) :=
  ⟨by rfl,
   C3_err_monotone (Background.mk none [WithCancel.mk (some ContextError.Canceled) []])
     [TreeOp.cancelAt 0 [] true ContextError.Canceled, TreeOp.newChild []] [0]
     ContextError.Canceled (by rfl)⟩

/-- C4: canceling the child `i` of the root (and any node below it, path
`p`) never touches the root's own `canceled` field nor any sibling subtree
`j ≠ i`; moreover every lock/notify event of a cancel cascade happens at
the canceled node or one of its descendants, so no sibling's waiters are
ever notified by it (their `done()` cannot resolve). -/
theorem C4_upward_isolation (r : Background) (i : Nat) (p : List Nat) (b : Bool)
    (e : ContextError) (j : Nat) (q : List Nat) (hij : j ≠ i) :
    (cancelAtBg r i p b e).canceled = r.canceled
    ∧ Background.findAt (cancelAtBg r i p b e) (j :: q) = Background.findAt r (j :: q)
    ∧ ∀ (t : WithCancel) (bp : List Nat) (ev : Ev),
        ev ∈ WithCancel.cancelTrace t bp → leadsTo bp ev.path = true := by
  refine ⟨rfl, ?_, fun t bp ev hev => cancelTrace_under t bp ev hev⟩
  simp only [Background.findAt, cancelAtBg, modifyAt_get_ne _ i j _ hij]

/-- Witness for C4 on the sibling scenario: cancel child A (index 0), child
B (index 1) is untouched. -/
theorem C4_witness :
    (1 : Nat) ≠ 0
    ∧ ((cancelAtBg demoSiblings 0 [] true ContextError.Canceled).canceled
        = demoSiblings.canceled
      ∧ Background.findAt (cancelAtBg demoSiblings 0 [] true ContextError.Canceled) [1]
          = Background.findAt demoSiblings [1]
      ∧ ∀ (t : WithCancel) (bp : List Nat) (ev : Ev),
          ev ∈ WithCancel.cancelTrace t bp → leadsTo bp ev.path = true) :=
  ⟨by decide,
   C4_upward_isolation demoSiblings 0 [] true ContextError.Canceled 1 [] (by decide)⟩

/-- C5 counterexample: in the concrete scenario (root R, child A, grandchild
B; cancel A), calling `R.err()` does not return `None` — `Background::err`
is a `todo!()` stub, so the call panics.  Querying the root's cancellation
state is not a supported, non-fatal operation. -/
theorem C5_counterexample :
    Background.errCall (cancelAtBg demoRAB 0 [] true ContextError.Canceled)
        ≠ PanicOr.ret (none : Option ContextError)
    ∧ Background.errCall (cancelAtBg demoRAB 0 [] true ContextError.Canceled)
        = PanicOr.panics :=
  ⟨by decide, rfl⟩

/-- C5 (amended): after canceling any child of the root, the root's stored
`canceled` field is unchanged (in the concrete scenario it remains `None` —
the root is never marked canceled by a cancel below it), but reading it via
`Background::err` is an unimplemented, fatal operation (`todo!()` panics),
not a supported query returning `None`. -/
theorem C5_root_unmarked_but_err_panics (r : Background) (i : Nat) (p : List Nat) (b : Bool)
    (e : ContextError) :
    (cancelAtBg r i p b e).canceled = r.canceled
    ∧ Background.errCall (cancelAtBg r i p b e) = PanicOr.panics
    ∧ (cancelAtBg demoRAB 0 [] true ContextError.Canceled).canceled = none :=
  ⟨rfl, rfl, rfl⟩

/-- C6: for every node of every tree built from `Background::new` and
`WithCancel::new` — i.e. for every parent chain, with arbitrary `canceled`
fields, so both before and after any cancels — and for every key,
`value(key)` returns `Err(NotFound)`: `WithCancel::value` delegates
unconditionally to the parent and `Background::value` holds no values. -/
theorem C6_value_always_notFound (ch : Chain) (k : ContextKey) :
    Chain.value ch k = Except.error ContextValueError.NotFound := by
  induction ch with
  | background r => rfl
  | withCancel c par ih => simpa [Chain.value] using ih

/-- C7: `value(key)` terminates for every node and key: with a step budget
of the node's depth plus one it completes — it delegates exactly once per
`WithCancel` ancestor, walking strictly up the parent chain, and ends at
the root with `NotFound`. -/
theorem C7_value_terminates_within_depth (ch : Chain) (k : ContextKey) :
    Chain.valueFuel (Chain.depth ch + 1) ch k
      = some (Except.error ContextValueError.NotFound) := by
  induction ch with
  | background r => rfl
  | withCancel c par ih => simpa [Chain.valueFuel, Chain.depth] using ih

/-- C8: the `remove_from_parent` flag of `cancel` is dead: for every tree,
target node, cause and both flag values, the two cancel calls produce
identical trees — identical effects on the node, its parent and its
children — and no node's `children` list ever loses (or gains) an entry:
the node is never unregistered from its parent. -/
theorem C8_remove_from_parent_flag_dead (r : Background) (i : Nat) (p : List Nat)
    (b₁ b₂ : Bool) (e : ContextError) :
    cancelAtBg r i p b₁ e = cancelAtBg r i p b₂ e
    ∧ ∀ q, Background.childCountAt (cancelAtBg r i p b₁ e) q = Background.childCountAt r q := by
  constructor
  · simp only [cancelAtBg]
    have hfe : (fun ch => WithCancel.cancelAt ch p b₁ e)
        = (fun ch => WithCancel.cancelAt ch p b₂ e) :=
      funext (fun ch => WithCancel.cancelAt_flag_irrel p ch b₁ b₂ e)
    rw [hfe]
  · intro q
    exact Background.childCount_cancelAtBg r i p b₁ e q

/-- C9 counterexample: cancel a node N (base path `[]`) that has one
registered child (path `[0]`).  Right after the second event of the cancel
trace — N's own lock acquisition followed by the child's — the task holds
both N's lock and the child's lock simultaneously, refuting "never two
locks at once": the `MutexGuard` taken at the top of `Canceler::cancel`
is still alive while each child recursively locks itself. -/
theorem C9_counterexample :
    runLocks [] ((WithCancel.cancelTrace demoParentChild []).take 2) = [[0], []]
    ∧ ([] ∈ runLocks [] ((WithCancel.cancelTrace demoParentChild []).take 2)
      ∧ [0] ∈ runLocks [] ((WithCancel.cancelTrace demoParentChild []).take 2)) :=
  ⟨by decide, by decide, by decide⟩

/-- C9 (amended): during a cancel cascade the locks held at any instant are
not one at a time but form a nested ancestor chain — the locks of the nodes
on the path from the canceled node N down to the currently visited
descendant, each acquired while all of its ancestors' locks (within the
cascade) are still held.  Acquisition order thus follows the tree strictly
downward, which is the actual reason no deadlock cycle can arise. -/
theorem C9_held_locks_form_ancestor_chain (t : WithCancel) (p : List Nat) :
    stackRun [] (WithCancel.cancelTrace t p) = true :=
  (cancel_locks_nested t p [] rfl rfl).1

/-- C10: `done()` never resolves to `Ok(())`: in every run of the waiter
protocol from the initial node state, every resolved `done()` call carries
`Err(Canceled)` — `cancel` writes `canceled = Some(..)` before
`notify_waiters()` and both happen under the node's lock, so a woken waiter
always re-reads a non-empty cause; the `Ok` branch of `done` is
unreachable. -/
theorem C10_done_never_ok (ops : List WaitOp) (w : Nat) (res : DoneRes)
    (h : (w, res) ∈ (WaitState.run WaitState.init ops).resolved) :
    res = DoneRes.err ContextError.Canceled := by
  have hinv := WaitState.run_inv ops WaitState.init (fun _ => rfl)
    (by intro pr hpr; simp [WaitState.init] at hpr)
  exact hinv.2 (w, res) h

/-- Witness for C10: waiter 0 registers, the node is canceled, waiter 0 is
rescheduled — its `done()` resolves to `Err(Canceled)`. -/
theorem C10_witness :
    ((0, DoneRes.err ContextError.Canceled)
        ∈ (WaitState.run WaitState.init
            [WaitOp.register 0, WaitOp.cancel ContextError.Canceled,
             WaitOp.resolve 0]).resolved)
    ∧ DoneRes.err ContextError.Canceled = DoneRes.err ContextError.Canceled :=
  ⟨by decide,
   C10_done_never_ok
     [WaitOp.register 0, WaitOp.cancel ContextError.Canceled, WaitOp.resolve 0] 0
     (DoneRes.err ContextError.Canceled) (by decide)⟩
